import Mathlib

/-!
Shallow embedding of the read path of foursquare/graphite:
`webapp/graphite/storage.py` and `webapp/graphite/render/datalib.py`.

Machine numbers are modelled as `Int`/`Nat`; Python float arithmetic on the
integer-scale quantities appearing here (timestamps, rates, small sums and
averages) is modelled by exact rational arithmetic (`ℚ`), which agrees with
IEEE doubles at these magnitudes.  Python's `%` on ints is `Int.fmod`
(result has the divisor's sign) and its integer `/` (Python 2 floor
division) is `Int.fdiv`.
-/

/-- Python list indexing: index `i` addresses slot `i` when `0 ≤ i < len`,
slot `len + i` when `-len ≤ i < 0` (negative indexing), and raises
`IndexError` otherwise (modelled as `none`). -/
def pyIdx (len : Nat) (i : Int) : Option Nat :=
  if 0 ≤ i ∧ i < (len : Int) then some i.toNat
  else if -(len : Int) ≤ i ∧ i < 0 then some ((len : Int) + i).toNat
  else none

/-- Generic sequential in-place writes: each sample `s` writes `val s` into
slot `slot s` of the accumulator (no-op when `slot s = none`).  Both the
cache-overlay loop of `mergeResults` and the resampling loop of
`fetchDataFromHyperTable` are instances of this shape. -/
def applyWrites (slot : σ → Option Nat) (val : σ → α) : List σ → List α → List α
  | [], acc => acc
  | s :: ss, acc =>
      applyWrites slot val ss
        (match slot s with
         | some n => acc.set n (val s)
         | none => acc)

theorem applyWrites_length (slot : σ → Option Nat) (val : σ → α) :
    ∀ (ss : List σ) (acc : List α), (applyWrites slot val ss acc).length = acc.length := by
  intro ss
  induction ss with
  | nil => intro acc; rfl
  | cons s ss ih =>
      intro acc
      unfold applyWrites
      cases h : slot s with
      | none => simpa using ih acc
      | some n => simpa using ih (acc.set n (val s))

/-- The slot written last wins: after `applyWrites`, slot `j` holds the value
of the last sample targeting `j`, or the original entry when no sample
targets `j`. -/
theorem applyWrites_get (slot : σ → Option Nat) (val : σ → α) :
    ∀ (ss : List σ) (acc : List α) (j : Nat), j < acc.length →
      (applyWrites slot val ss acc)[j]? =
        ((ss.filter (fun s => decide (slot s = some j))).getLast?).elim
          acc[j]? (fun s => some (val s)) := by
  intro ss
  induction ss with
  | nil => intro acc j _; rfl
  | cons s ss ih =>
      intro acc j hj
      have hstep :
          applyWrites slot val (s :: ss) acc =
            applyWrites slot val ss
              (match slot s with
               | some n => acc.set n (val s)
               | none => acc) := rfl
      set acc' : List α :=
        (match slot s with
         | some n => acc.set n (val s)
         | none => acc) with hacc'
      have hlen' : acc'.length = acc.length := by
        rw [hacc']
        cases slot s with
        | none => rfl
        | some n => simp
      have hj' : j < acc'.length := by rw [hlen']; exact hj
      have hih := ih acc' j hj'
      -- the entry of the one-step accumulator at j
      have hacc'j : acc'[j]? =
          (if slot s = some j then some (val s) else acc[j]?) := by
        rw [hacc']
        cases hs : slot s with
        | none => simp [hs]
        | some n =>
            by_cases hnj : n = j
            · subst hnj
              simp [List.getElem?_set_self, hj]
            · have hne : ¬ (some n = some j) := by simpa using hnj
              simp [hne, List.getElem?_set_ne hnj]
      have hfilter :
          (s :: ss).filter (fun t => decide (slot t = some j)) =
            (if slot s = some j then [s] else []) ++
              ss.filter (fun t => decide (slot t = some j)) := by
        by_cases hs : slot s = some j <;> simp [List.filter_cons, hs]
      rw [hstep, hih, hfilter]
      cases hrest : (ss.filter (fun t => decide (slot t = some j))).getLast? with
      | some t =>
          have hne : ss.filter (fun t => decide (slot t = some j)) ≠ [] := by
            intro hnil
            rw [hnil] at hrest
            exact Option.noConfusion hrest
          rw [List.getLast?_append_of_ne_nil _ hne, hrest]
          rfl
      | none =>
          have hnil : ss.filter (fun t => decide (slot t = some j)) = [] := by
            exact List.getLast?_eq_none_iff.mp hrest
          rw [hnil]
          by_cases hs : slot s = some j
          · rw [if_pos hs]
            simp [hacc'j, hs]
          · rw [if_neg hs]
            simp [hacc'j, hs]

/-! ## `mergeResults` (datalib.py lines 329-349)

`mergeResults(dbResults, cacheResults)` returns `cacheResults` verbatim when
`dbResults` is absent, `dbResults` verbatim when the cache list is empty, and
otherwise overlays each cache sample onto the disk value array.  The loop
computes `interval = timestamp - (timestamp % step)` *outside* the `try`, so
a zero `step` raises `ZeroDivisionError` out of `mergeResults` (modelled as
`none`); only `i = int(interval - start) / step; values[i] = value` sits
inside the bare `try/except: pass`, so an out-of-range assignment
(`IndexError`) silently drops the sample, while a negative index `i` with
`-len ≤ i < 0` is Python negative indexing and *writes* slot `len + i`. -/

inductive MergeOut where
  | cache (samples : List (Int × ℚ))
  | db (timeInfo : Int × Int × Int) (values : List (Option ℚ))
deriving DecidableEq

/-- One iteration of the cache-overlay loop of `mergeResults`: `none` when
the unguarded `timestamp % step` raises `ZeroDivisionError` (zero step);
otherwise the guarded assignment, whose `IndexError` is swallowed. -/
def mergeOne (step start : Int) (values : List (Option ℚ)) (sample : Int × ℚ) :
    Option (List (Option ℚ)) :=
  if step = 0 then none  -- timestamp % step raises, outside the try
  else
    let interval := sample.1 - sample.1.fmod step
    let i := (interval - start).fdiv step
    match pyIdx values.length i with
    | some n => some (values.set n (some sample.2))
    | none => some values  -- IndexError, swallowed by the bare except

/-- The cache-overlay loop, stopping at the first uncaught exception. -/
def mergeLoop (step start : Int) :
    List (Int × ℚ) → List (Option ℚ) → Option (List (Option ℚ))
  | [], values => some values
  | s :: ss, values =>
      match mergeOne step start values s with
      | some v2 => mergeLoop step start ss v2
      | none => none

/-- `mergeResults` from datalib.py.  `dbResults` is `None` or
`((start, end, step), values)`; an empty cache list is falsy; `none` is the
`ZeroDivisionError` escaping the function. -/
def mergeResults (dbResults : Option ((Int × Int × Int) × List (Option ℚ)))
    (cacheResults : List (Int × ℚ)) : Option MergeOut :=
  match dbResults with
  | none => some (.cache cacheResults)
  | some (ti, values) =>
      if cacheResults = [] then some (.db ti values)
      else (mergeLoop ti.2.2 ti.1 cacheResults values).map (MergeOut.db ti)

/-- The slot a cache sample with timestamp `ts` lands in (the code's index
computation fed through Python indexing, negative wrap included), or `none`
when the guarded assignment raises `IndexError` and the sample is dropped.
Only consulted for `step ≠ 0`, where the unguarded `%` does not raise. -/
def mergeSlot (step start : Int) (len : Nat) (ts : Int) : Option Nat :=
  pyIdx len (((ts - ts.fmod step) - start).fdiv step)

theorem mergeOne_eq_slot (step start : Int) (hstep : step ≠ 0)
    (values : List (Option ℚ)) (sample : Int × ℚ) :
    mergeOne step start values sample =
      some (match mergeSlot step start values.length sample.1 with
            | some n => values.set n (some sample.2)
            | none => values) := by
  unfold mergeOne mergeSlot
  rw [if_neg hstep]
  cases h : pyIdx values.length
      (((sample.1 - sample.1.fmod step) - start).fdiv step) <;> simp [h]

theorem mergeLoop_eq_applyWrites (step start : Int) (hstep : step ≠ 0) :
    ∀ (cache : List (Int × ℚ)) (values : List (Option ℚ)),
      mergeLoop step start cache values =
        some (applyWrites (fun smp => mergeSlot step start values.length smp.1)
          (fun smp => some smp.2) cache values) := by
  intro cache
  induction cache with
  | nil => intro values; rfl
  | cons s ss ih =>
      intro values
      have hunf : mergeLoop step start (s :: ss) values =
          (match mergeOne step start values s with
           | some v2 => mergeLoop step start ss v2
           | none => none) := rfl
      rw [hunf, mergeOne_eq_slot step start hstep]
      rw [show applyWrites (fun smp => mergeSlot step start values.length smp.1)
            (fun smp => some smp.2) (s :: ss) values =
          applyWrites (fun smp => mergeSlot step start values.length smp.1)
            (fun smp => some smp.2) ss
            (match mergeSlot step start values.length s.1 with
             | some n => values.set n (some s.2)
             | none => values) from rfl]
      cases h : mergeSlot step start values.length s.1 with
      | none =>
          simp only [h]
          exact ih values
      | some n =>
          simp only [h]
          have hlen : (values.set n (some s.2)).length = values.length := by simp
          rw [ih (values.set n (some s.2)), hlen]

/-- C1 counterexample: a cache sample at timestamp 95, earlier than
`start = 100`, computes index `(90 - 100) / 10 = -1`, which is outside the
bounds `[0, 4)` of the values array — yet `values[-1] = value` is Python
negative indexing and overwrites the *last* slot, so the sample is applied,
not dropped as the claim states. -/
theorem c1_counterexample :
    (((95 : Int) - (95 : Int).fmod 10 - 100).fdiv 10 = -1) ∧
    mergeResults (some ((100, 140, 10), [some 1, some 2, some 3, some 4])) [(95, 55)]
      = some (.db (100, 140, 10) [some 1, some 2, some 3, some 55]) ∧
    mergeResults (some ((100, 140, 10), [some 1, some 2, some 3, some 4])) [(95, 55)]
      ≠ some (.db (100, 140, 10) [some 1, some 2, some 3, some 4]) := by
  exact ⟨by decide, by decide, by decide⟩

/-- C1 (amended): for every disk result `((start,end,step), values)` with a
nonzero step (a zero step would raise `ZeroDivisionError` at the unguarded
`timestamp % step`) and every cache sample list, `mergeResults` merges by
computed index `i = ((ts - ts mod step) - start) / step` (floor): a sample
with `0 ≤ i < len` overwrites slot `i`, a sample with `-len ≤ i < 0`
overwrites slot `len + i` (Python negative indexing), and only samples with
`i` outside `[-len, len)` are silently dropped; the last sample mapping to
a slot wins (`mergeSlot` packages exactly this index computation).  The
disk example `[1,2,3,4]`, `start=0`, `step=10` with cache `[(5,99),(25,77)]`
merges to `[99,2,77,4]`. -/
theorem c1_mergeResults_amended :
    (∀ (s e step : Int) (values : List (Option ℚ)) (cache : List (Int × ℚ)),
      step ≠ 0 →
      ∃ merged,
        mergeResults (some ((s, e, step), values)) cache
          = some (.db (s, e, step) merged) ∧
        merged.length = values.length ∧
        ∀ j : Nat, j < values.length →
          merged[j]? =
            ((cache.filter
                (fun smp => decide (mergeSlot step s values.length smp.1 = some j))).getLast?).elim
              values[j]? (fun smp => some (some smp.2))) ∧
    mergeResults (some ((0, 40, 10), [some 1, some 2, some 3, some 4])) [(5, 99), (25, 77)]
      = some (.db (0, 40, 10) [some 99, some 2, some 77, some 4]) := by
  constructor
  · intro s e step values cache hstep
    by_cases hc : cache = []
    · subst hc
      refine ⟨values, by simp [mergeResults], rfl, ?_⟩
      intro j _
      simp
    · refine ⟨applyWrites (fun smp => mergeSlot step s values.length smp.1)
          (fun smp => some smp.2) cache values, ?_, ?_, ?_⟩
      · simp [mergeResults, hc, mergeLoop_eq_applyWrites step s hstep]
      · rw [applyWrites_length]
      · intro j hj
        rw [applyWrites_get _ _ _ _ _ hj]
  · decide

theorem c1_mergeResults_amended_witness :
    ∃ merged,
      mergeResults (some ((0, 40, 10), [some 1, some 2, some 3, some 4])) [(5, 99), (25, 77)]
        = some (.db (0, 40, 10) merged) ∧ merged[0]? = some (some 99) := by
  obtain ⟨merged, h1, _, h3⟩ :=
    c1_mergeResults_amended.1 0 40 10 [some 1, some 2, some 3, some 4] [(5, 99), (25, 77)]
      (by decide)
  refine ⟨merged, h1, ?_⟩
  rw [h3 0 (by decide)]
  decide

/-! ## TimeSeries consolidation (datalib.py lines 36-82) -/

/-- The two consolidation functions the source implements
(`consolidationFunc` is the string `'sum'` or `'average'`; any other string
makes `__consolidate` raise, a path no claim exercises). -/
inductive ConsFunc where
  | sum
  | average
deriving DecidableEq

/-- `TimeSeries.__consolidate`: drop `None`s, return `None` when nothing
usable remains, else the sum or the average of the usable values. -/
def consolidateVals (f : ConsFunc) (values : List (Option ℚ)) : Option ℚ :=
  let usable := values.filterMap id
  if usable = [] then none
  else
    match f with
    | .sum => some usable.sum
    | .average => some (usable.sum / (usable.length : ℚ))

/-- `while None in buf: buf.remove(None)` — deletes every `None`, keeping
the order of the remaining entries. -/
def removeNones (l : List (Option ℚ)) : List (Option ℚ) :=
  l.filter (fun x => x.isSome)

/-- `TimeSeries.__consolidatingGenerator`, as a function from the current
buffer `buf` and the remaining input to the emitted list.  Mirrors the
source exactly: each time the buffer reaches `valuesPerPoint` entries it is
filtered of `None`s and emitted (`None` when the whole group was null), and
after the loop the leftover buffer is always emitted — also when it is
empty, which makes an evenly divided input end with a trailing `None`. -/
def consGen (n : Nat) (f : ConsFunc) : List (Option ℚ) → List (Option ℚ) → List (Option ℚ)
  | buf, [] =>
      if removeNones buf ≠ [] then [consolidateVals f (removeNones buf)] else [none]
  | buf, x :: xs =>
      if (buf ++ [x]).length = n then
        if removeNones (buf ++ [x]) ≠ [] then
          consolidateVals f (removeNones (buf ++ [x])) :: consGen n f [] xs
        else none :: consGen n f [] xs  -- buf was emptied in place by the removals
      else consGen n f (buf ++ [x]) xs

structure TimeSeries where
  name : String
  start : Int
  stop : Int  -- named `end` in the source
  step : Int
  values : List (Option ℚ)
  consolidationFunc : ConsFunc
  valuesPerPoint : Int
deriving DecidableEq

/-- `TimeSeries.__init__`: stores the values; `valuesPerPoint` starts at 1. -/
def TimeSeries.mkSeries (name : String) (start stop step : Int)
    (values : List (Option ℚ)) (f : ConsFunc) : TimeSeries :=
  ⟨name, start, stop, step, values, f, 1⟩

/-- `TimeSeries.consolidate(valuesPerPoint)`. -/
def TimeSeries.setConsolidate (t : TimeSeries) (vpp : Int) : TimeSeries :=
  { t with valuesPerPoint := vpp }

/-- `TimeSeries.__iter__`: the consolidating generator when
`valuesPerPoint > 1`, the raw stored values otherwise. -/
def TimeSeries.iterValues (t : TimeSeries) : List (Option ℚ) :=
  if t.valuesPerPoint > 1 then
    consGen t.valuesPerPoint.toNat t.consolidationFunc [] t.values
  else t.values

theorem consGen_nil (n : Nat) (f : ConsFunc) (buf : List (Option ℚ)) :
    consGen n f buf [] =
      if removeNones buf ≠ [] then [consolidateVals f (removeNones buf)] else [none] := rfl

theorem consGen_cons (n : Nat) (f : ConsFunc) (buf x : _) (xs : List (Option ℚ)) :
    consGen n f buf (x :: xs) =
      if (buf ++ [x]).length = n then
        if removeNones (buf ++ [x]) ≠ [] then
          consolidateVals f (removeNones (buf ++ [x])) :: consGen n f [] xs
        else none :: consGen n f [] xs
      else consGen n f (buf ++ [x]) xs := rfl

theorem filterMap_removeNones (l : List (Option ℚ)) :
    (removeNones l).filterMap id = l.filterMap id := by
  induction l with
  | nil => rfl
  | cons x xs ih =>
      cases x with
      | none => simpa [removeNones, List.filter_cons] using ih
      | some a =>
          simp only [removeNones, List.filter_cons, List.filterMap_cons] at ih ⊢
          simp [ih]

theorem consolidateVals_removeNones (f : ConsFunc) (l : List (Option ℚ)) :
    consolidateVals f (removeNones l) = consolidateVals f l := by
  unfold consolidateVals
  rw [filterMap_removeNones]

/-- Emitting a finished group equals consolidating the unfiltered group,
whichever branch of the generator fires. -/
theorem consGen_step_head (n : Nat) (f : ConsFunc) (buf1 xs : List (Option ℚ)) :
    (if removeNones buf1 ≠ [] then
        consolidateVals f (removeNones buf1) :: consGen n f [] xs
      else none :: consGen n f [] xs) =
      consolidateVals f buf1 :: consGen n f [] xs := by
  by_cases h : removeNones buf1 = []
  · have hnil : buf1.filterMap id = [] := by
      rw [← filterMap_removeNones, h]; rfl
    simp [h, consolidateVals, hnil]
  · simp [h, consolidateVals_removeNones]

/-- Consuming one full group of size `n` emits exactly its consolidated
value and resets the buffer. -/
theorem consGen_full (n : Nat) (f : ConsFunc) :
    ∀ (g buf xs : List (Option ℚ)),
      buf.length + g.length = n → g ≠ [] →
      consGen n f buf (g ++ xs) = consolidateVals f (buf ++ g) :: consGen n f [] xs := by
  intro g
  induction g with
  | nil => intro buf xs _ hne; exact absurd rfl hne
  | cons a g ih =>
      intro buf xs hlen _
      cases g with
      | nil =>
          have h1 : (buf ++ [a]).length = n := by
            simpa using hlen
          rw [List.singleton_append, consGen_cons, if_pos h1, consGen_step_head]
      | cons b g' =>
          have hb : (buf ++ [a]).length = buf.length + 1 := by simp
          have hlen' : buf.length + (g'.length + 1 + 1) = n := by
            simpa using hlen
          have h1 : (buf ++ [a]).length ≠ n := by
            rw [hb]; omega
          rw [List.cons_append, consGen_cons, if_neg h1]
          have := ih (buf ++ [a]) xs (by rw [hb]; simp; omega) (by simp)
          rw [this, List.append_assoc]
          rfl

/-- A leftover buffer shorter than `n` is emitted in one final element. -/
theorem consGen_tail (n : Nat) (f : ConsFunc) :
    ∀ (rest buf : List (Option ℚ)), buf.length + rest.length < n →
      consGen n f buf rest = [consolidateVals f (buf ++ rest)] := by
  intro rest
  induction rest with
  | nil =>
      intro buf _
      rw [consGen_nil]
      by_cases h : removeNones buf = []
      · have hnil : buf.filterMap id = [] := by
          rw [← filterMap_removeNones, h]; rfl
        simp [h, consolidateVals, hnil]
      · simp [h, consolidateVals_removeNones]
  | cons a rest ih =>
      intro buf hlt
      rw [consGen_cons]
      have hb : (buf ++ [a]).length = buf.length + 1 := by simp
      have hlt' : buf.length + (rest.length + 1) < n := by simpa using hlt
      have hne : (buf ++ [a]).length ≠ n := by rw [hb]; omega
      rw [if_neg hne]
      have := ih (buf ++ [a]) (by rw [hb]; omega)
      rw [this, List.append_assoc]
      rfl

/-- The generator over `groups.flatten ++ rest`: one consolidated value per
group, then one final element for the leftover (a `None` when the input
divided evenly, i.e. `rest = []`). -/
theorem consGen_groups (n : Nat) (f : ConsFunc) :
    ∀ (groups : List (List (Option ℚ))) (rest : List (Option ℚ)),
      (∀ g ∈ groups, g.length = n) → rest.length < n →
      consGen n f [] (groups.flatten ++ rest) =
        groups.map (consolidateVals f) ++ [consolidateVals f rest] := by
  intro groups
  induction groups with
  | nil =>
      intro rest _ hr
      simpa using consGen_tail n f rest [] (by simpa using hr)
  | cons g gs ih =>
      intro rest hg hr
      have hglen : g.length = n := hg g (by simp)
      have hgne : g ≠ [] := by
        intro hnil
        rw [hnil] at hglen
        simp at hglen
        omega
      have hfull := consGen_full n f g [] (gs.flatten ++ rest) (by simpa using hglen) hgne
      rw [List.flatten_cons, List.append_assoc, hfull]
      rw [ih rest (fun g' h' => hg g' (by simp [h'])) hr]
      simp

theorem consGen_example :
    consGen 2 .average [] [some 1, some 2, none, some 4] = [some (3/2), some 4, none] := by
  have h1 : consolidateVals .average [some 1, some 2] = some (3/2) := by
    simp only [consolidateVals, List.filterMap_cons, List.filterMap_nil, id]
    norm_num
    simp
  have h2 : consolidateVals .average [some 4] = some 4 := by
    simp only [consolidateVals, List.filterMap_cons, List.filterMap_nil, id]
    norm_num
  simp [consGen_cons, consGen_nil, removeNones, List.filter, h1, h2]

theorem iterValues_example :
    ((TimeSeries.mkSeries "" 0 40 10 [some 1, some 2, none, some 4]
        .average).setConsolidate 2).iterValues = [some (3/2), some 4, none] := by
  rw [TimeSeries.iterValues]
  norm_num [TimeSeries.setConsolidate, TimeSeries.mkSeries]
  rw [show Int.toNat 2 = 2 from rfl, consGen_example]

/-- C2 counterexample: the TimeSeries `[1, 2, None, 4]` with
values-per-point 2 and function `average` iterates as `[1.5, 4.0, None]` —
after the last full group the generator's epilogue finds an *empty* buffer
and still executes `yield None`, so there IS an extra trailing element,
contradicting the claim's "iterates as exactly `[1.5, 4.0]`". -/
theorem c2_counterexample :
    ((TimeSeries.mkSeries "" 0 40 10 [some 1, some 2, none, some 4]
        .average).setConsolidate 2).iterValues = [some (3/2), some 4, none] ∧
    ((TimeSeries.mkSeries "" 0 40 10 [some 1, some 2, none, some 4]
        .average).setConsolidate 2).iterValues ≠ [some (3/2), some 4] := by
  refine ⟨iterValues_example, ?_⟩
  rw [iterValues_example]
  intro h
  exact absurd (congrArg List.length h) (by decide)

/-- C2 (amended): with values-per-point `n > 1`, iteration yields exactly one
consolidated value per full group of `n` raw samples, computed only over the
non-null members (an all-null group yields null), and then exactly one final
element: the consolidated partial group when the length does not divide
evenly, but a trailing null when it does (the epilogue also fires on an
empty leftover buffer).  In particular `[1,2,None,4]` with `n = 2` and
`average` iterates as `[1.5, 4.0, None]`. -/
theorem c2_consolidation_amended :
    (∀ (n : Nat) (f : ConsFunc) (groups : List (List (Option ℚ)))
        (rest : List (Option ℚ)) (nm : String) (s e st : Int),
      1 < n → (∀ g ∈ groups, g.length = n) → rest.length < n →
      ((TimeSeries.mkSeries nm s e st (groups.flatten ++ rest) f).setConsolidate
          (n : Int)).iterValues
        = groups.map (consolidateVals f) ++ [consolidateVals f rest]) ∧
    (∀ (f : ConsFunc) (g : List (Option ℚ)),
      consolidateVals f g = consolidateVals f (removeNones g)) ∧
    (∀ (f : ConsFunc) (g : List (Option ℚ)),
      (∀ x ∈ g, x = none) → consolidateVals f g = none) ∧
    ((TimeSeries.mkSeries "" 0 40 10 [some 1, some 2, none, some 4]
        .average).setConsolidate 2).iterValues = [some (3/2), some 4, none] := by
  refine ⟨?_, ?_, ?_, iterValues_example⟩
  · intro n f groups rest nm s e st hn hg hr
    have hvpp : ((n : Int) > 1) := by exact_mod_cast hn
    unfold TimeSeries.iterValues
    simp only [TimeSeries.setConsolidate, TimeSeries.mkSeries]
    rw [if_pos hvpp]
    simp only [Int.toNat_ofNat]
    exact consGen_groups n f groups rest hg hr
  · intro f g
    exact (consolidateVals_removeNones f g).symm
  · intro f g hall
    have hnil : g.filterMap id = [] := by
      rw [List.filterMap_eq_nil_iff]
      intro a ha
      rw [hall a ha]
      rfl
    simp [consolidateVals, hnil]

theorem c2_consolidation_amended_witness :
    ((TimeSeries.mkSeries "w" 0 40 10
        (([[some 1, some 2], [none, some 4]] : List (List (Option ℚ))).flatten ++ [])
        .average).setConsolidate 2).iterValues
      = ([[some 1, some 2], [none, some 4]] : List (List (Option ℚ))).map
          (consolidateVals .average) ++ [consolidateVals .average []] := by
  exact c2_consolidation_amended.1 2 .average [[some 1, some 2], [none, some 4]] []
    "w" 0 40 10 (by decide) (by decide) (by decide)

/-- C9: with the values-per-point factor at its construction default of 1,
or after `consolidate` with a factor of 1 or less, iteration yields exactly
the stored raw values, in order and unchanged. -/
theorem c9_identity_iteration :
    (∀ t : TimeSeries, t.valuesPerPoint ≤ 1 → t.iterValues = t.values) ∧
    (∀ (nm : String) (s e st : Int) (values : List (Option ℚ)) (f : ConsFunc),
      (TimeSeries.mkSeries nm s e st values f).iterValues = values) ∧
    (∀ (t : TimeSeries) (k : Int), k ≤ 1 →
      (t.setConsolidate k).iterValues = t.values) := by
  refine ⟨?_, ?_, ?_⟩
  · intro t h
    unfold TimeSeries.iterValues
    rw [if_neg (by omega)]
  · intro nm s e st values f
    rfl
  · intro t k hk
    unfold TimeSeries.iterValues TimeSeries.setConsolidate
    rw [if_neg (by simp only; omega)]

theorem c9_identity_iteration_witness :
    ((TimeSeries.mkSeries "m" 0 40 10 [some 1, none] .average).setConsolidate 1).iterValues
      = [some 1, none] :=
  c9_identity_iteration.2.2 (TimeSeries.mkSeries "m" 0 40 10 [some 1, none] .average) 1
    (by decide)

/-! ## CarbonLink response framing (datalib.py lines 178-197)

The socket is modelled by its read schedule: the successive byte chunks
`conn.recv` hands back.  `recv(k)` consumes at most `k` bytes of the front
chunk, leaving the remainder for the next call; an empty front chunk (or an
exhausted schedule) is the zero-byte read of a dropped connection. -/

/-- `recv_exactly(conn, num_bytes)`: loop `while len(buf) < num_bytes`,
raising on a zero-byte read.  `fuel` bounds the loop iterations; every
successful iteration appends at least one byte to `buf`, so the `num_bytes`
of fuel supplied by `recv_exactly` can never run out (the fuel-zero branch
reuses the connection-lost error and is unreachable from `recv_exactly`). -/
def recv_exactly_aux (num_bytes : Nat) : Nat → List (List Nat) → List Nat →
    Except String (List Nat × List (List Nat))
  | _, [], buf =>
      if num_bytes ≤ buf.length then .ok (buf, [])
      else .error "Connection lost"  -- recv on an exhausted stream returns zero bytes
  | 0, c :: rest, buf =>
      if num_bytes ≤ buf.length then .ok (buf, c :: rest)
      else .error "Connection lost"  -- unreachable fuel exhaustion (see above)
  | f + 1, c :: rest, buf =>
      if num_bytes ≤ buf.length then .ok (buf, c :: rest)
      else if c.take (num_bytes - buf.length) = [] then .error "Connection lost"
      else
        recv_exactly_aux num_bytes f
          (if c.drop (num_bytes - buf.length) = [] then rest
           else c.drop (num_bytes - buf.length) :: rest)
          (buf ++ c.take (num_bytes - buf.length))

/-- `recv_exactly(conn, num_bytes)` entry point: empty buffer, enough fuel. -/
def recv_exactly (chunks : List (List Nat)) (num_bytes : Nat) :
    Except String (List Nat × List (List Nat)) :=
  recv_exactly_aux num_bytes num_bytes chunks []

/-- `struct.unpack("!L", len_prefix)[0]`: 4 bytes, big-endian unsigned. -/
def unpackBE4 (bs : List Nat) : Nat :=
  match bs with
  | [a, b, c, d] => ((a * 256 + b) * 256 + c) * 256 + d
  | _ => 0

/-- `CarbonLinkPool.recv_response`: read exactly 4 bytes, interpret them as
a big-endian unsigned length, then read exactly that many payload bytes
(the pickle deserialization of the payload is outside this model). -/
def recv_response (chunks : List (List Nat)) : Except String (List Nat) :=
  match recv_exactly chunks 4 with
  | .error e => .error e
  | .ok (lenPfx, rest) =>
      match recv_exactly rest (unpackBE4 lenPfx) with
      | .error e => .error e
      | .ok (body, _) => .ok body

theorem recv_exactly_aux_nil (num_bytes fuel : Nat) (buf : List Nat) :
    recv_exactly_aux num_bytes fuel [] buf =
      if num_bytes ≤ buf.length then .ok (buf, ([] : List (List Nat)))
      else .error "Connection lost" := by
  cases fuel <;> rfl

theorem recv_exactly_aux_cons_zero (num_bytes : Nat) (c : List Nat)
    (rest : List (List Nat)) (buf : List Nat) :
    recv_exactly_aux num_bytes 0 (c :: rest) buf =
      if num_bytes ≤ buf.length then .ok (buf, c :: rest)
      else .error "Connection lost" := rfl

theorem recv_exactly_aux_cons_succ (num_bytes f : Nat) (c : List Nat)
    (rest : List (List Nat)) (buf : List Nat) :
    recv_exactly_aux num_bytes (f + 1) (c :: rest) buf =
      if num_bytes ≤ buf.length then .ok (buf, c :: rest)
      else if c.take (num_bytes - buf.length) = [] then .error "Connection lost"
      else recv_exactly_aux num_bytes f
            (if c.drop (num_bytes - buf.length) = [] then rest
             else c.drop (num_bytes - buf.length) :: rest)
            (buf ++ c.take (num_bytes - buf.length)) := rfl

/-- Whenever the loop returns successfully it has accumulated exactly
`num_bytes` bytes — never fewer. -/
theorem recv_exactly_aux_ok_length (num_bytes : Nat) :
    ∀ (fuel : Nat) (chunks : List (List Nat)) (buf b : List Nat)
      (r : List (List Nat)), buf.length ≤ num_bytes →
      recv_exactly_aux num_bytes fuel chunks buf = .ok (b, r) →
      b.length = num_bytes := by
  intro fuel
  induction fuel with
  | zero =>
      intro chunks buf b r hle h
      by_cases hfull : num_bytes ≤ buf.length
      · cases chunks with
        | nil =>
            rw [recv_exactly_aux_nil, if_pos hfull] at h
            cases h
            omega
        | cons c rest =>
            rw [recv_exactly_aux_cons_zero, if_pos hfull] at h
            cases h
            omega
      · cases chunks with
        | nil =>
            rw [recv_exactly_aux_nil, if_neg hfull] at h
            exact absurd h (by simp)
        | cons c rest =>
            rw [recv_exactly_aux_cons_zero, if_neg hfull] at h
            exact absurd h (by simp)
  | succ f ih =>
      intro chunks buf b r hle h
      by_cases hfull : num_bytes ≤ buf.length
      · cases chunks with
        | nil =>
            rw [recv_exactly_aux_nil, if_pos hfull] at h
            cases h
            omega
        | cons c rest =>
            rw [recv_exactly_aux_cons_succ, if_pos hfull] at h
            cases h
            omega
      · cases chunks with
        | nil =>
            rw [recv_exactly_aux_nil, if_neg hfull] at h
            exact absurd h (by simp)
        | cons c rest =>
            rw [recv_exactly_aux_cons_succ, if_neg hfull] at h
            by_cases hdat : c.take (num_bytes - buf.length) = []
            · rw [if_pos hdat] at h
              exact absurd h (by simp)
            · rw [if_neg hdat] at h
              refine ih _ _ _ _ ?_ h
              have hlt : (c.take (num_bytes - buf.length)).length ≤ num_bytes - buf.length := by
                simp
              simp only [List.length_append]
              omega

/-- C4: a successfully received response consists of exactly the number of
payload bytes announced by the 4-byte big-endian length prefix — the loop
keeps reading until satisfied and never returns a shorter payload — and a
zero-byte read (empty chunk, or exhausted connection) while bytes are still
outstanding fails the request with a connection-lost error instead of
returning partial data. -/
theorem c4_recv_response :
    (∀ (chunks : List (List Nat)) (body : List Nat),
      recv_response chunks = .ok body →
      ∃ lenPfx rest, recv_exactly chunks 4 = .ok (lenPfx, rest) ∧
        lenPfx.length = 4 ∧ body.length = unpackBE4 lenPfx) ∧
    (∀ (num_bytes fuel : Nat) (rest : List (List Nat)) (buf : List Nat),
      buf.length < num_bytes →
      recv_exactly_aux num_bytes fuel ([] :: rest) buf = .error "Connection lost") ∧
    (∀ (num_bytes fuel : Nat) (buf : List Nat),
      buf.length < num_bytes →
      recv_exactly_aux num_bytes fuel [] buf = .error "Connection lost") := by
  refine ⟨?_, ?_, ?_⟩
  · intro chunks body h
    unfold recv_response at h
    split at h
    · exact absurd h (by simp)
    · rename_i lenPfx rest h4
      split at h
      · exact absurd h (by simp)
      · rename_i bodyB restB hb
        cases h
        refine ⟨lenPfx, rest, h4, ?_, ?_⟩
        · exact recv_exactly_aux_ok_length 4 4 chunks [] lenPfx rest (by simp) h4
        · exact recv_exactly_aux_ok_length (unpackBE4 lenPfx) (unpackBE4 lenPfx)
            rest [] body restB (by simp) hb
  · intro num_bytes fuel rest buf hlt
    cases fuel with
    | zero => rw [recv_exactly_aux_cons_zero, if_neg (by omega)]
    | succ f =>
        rw [recv_exactly_aux_cons_succ, if_neg (by omega), if_pos (by simp)]
  · intro num_bytes fuel buf hlt
    rw [recv_exactly_aux_nil, if_neg (by omega)]

theorem c4_recv_response_witness :
    ∃ lenPfx rest, recv_exactly [[0, 0, 0, 2], [7], [8]] 4 = .ok (lenPfx, rest) ∧
      lenPfx.length = 4 ∧ ([7, 8] : List Nat).length = unpackBE4 lenPfx :=
  c4_recv_response.1 [[0, 0, 0, 2], [7], [8]] [7, 8] (by rfl)

/-! ## Query.isExact (storage.py lines 102-108) -/

structure GQuery where
  pattern : String
  startTime : Option Int
  endTime : Option Int

/-- `Query.isExact`: `'*' not in pattern and '?' not in pattern and '[' not
in pattern` (Python single-character containment in a string). -/
def GQuery.isExact (q : GQuery) : Bool :=
  !(q.pattern.toList.contains '*') && !(q.pattern.toList.contains '?')
    && !(q.pattern.toList.contains '[')

/-- C5: `isExact` is true exactly when the pattern contains none of the
wildcard characters `*`, `?`, `[`; true for `servers.web01.cpu`, false for
`servers.web*.cpu`. -/
theorem c5_isExact :
    (∀ q : GQuery, q.isExact = true ↔
      ∀ c ∈ q.pattern.toList, c ≠ '*' ∧ c ≠ '?' ∧ c ≠ '[') ∧
    (GQuery.mk "servers.web01.cpu" none none).isExact = true ∧
    (GQuery.mk "servers.web*.cpu" none none).isExact = false := by
  refine ⟨?_, by decide, by decide⟩
  intro q
  have hstar : (!(q.pattern.toList.contains '*')) = true ↔ '*' ∉ q.pattern.toList := by simp
  have hq : (!(q.pattern.toList.contains '?')) = true ↔ '?' ∉ q.pattern.toList := by simp
  have hbr : (!(q.pattern.toList.contains '[')) = true ↔ '[' ∉ q.pattern.toList := by simp
  unfold GQuery.isExact
  rw [Bool.and_eq_true, Bool.and_eq_true, hstar, hq, hbr]
  constructor
  · rintro ⟨⟨ha, hb⟩, hc⟩ x hx
    exact ⟨fun e => ha (e ▸ hx), fun e => hb (e ▸ hx), fun e => hc (e ▸ hx)⟩
  · intro h
    exact ⟨⟨fun hm => (h _ hm).1 rfl, fun hm => (h _ hm).2.1 rfl⟩,
      fun hm => (h _ hm).2.2 rfl⟩

/-! ## Node and WhisperFile construction (storage.py lines 236-278) -/

structure GNode where
  fs_path : String
  metric_path : String
  real_metric : String
  name : String
deriving DecidableEq

/-- `Node.__init__`: the canonical name starts out equal to the logical
name, and `name` is the last dot-segment. -/
def GNode.init (fs_path metric_path : String) : GNode :=
  ⟨fs_path, metric_path, metric_path, (metric_path.splitOn ".").getLastD ""⟩

/-- `WhisperFile.__init__` (extension `.wsp`), with the filesystem's
`realpath` passed in as a function: after `Leaf.__init__` (which is
`Node.__init__`), when `realpath(fs_path)` differs from `fs_path` the
canonical metric name is re-derived from the resolved filesystem path. -/
def WhisperFile.init (realpath : String → String) (fs_path metric_path : String) : GNode :=
  let n := GNode.init fs_path metric_path
  let real_fs_path := realpath fs_path
  if real_fs_path ≠ fs_path then
    let relative_fs_path := metric_path.replace "." "/" ++ ".wsp"
    let base_fs_path := fs_path.take (fs_path.length - relative_fs_path.length)
    let relative_real_fs_path := real_fs_path.drop base_fs_path.length
    { n with real_metric :=
        (relative_real_fs_path.take
          (relative_real_fs_path.length - ".wsp".length)).replace "/" "." }
  else n

/-- C10: every Node is constructed with `real_metric == metric_path`, and a
WhisperFile whose filesystem path resolves to itself (no symlink:
`realpath(fs_path) == fs_path`) keeps `real_metric == metric_path` — the
canonical name can only diverge when a symlink was traversed. -/
theorem c10_real_metric :
    (∀ fs mp : String, (GNode.init fs mp).real_metric = (GNode.init fs mp).metric_path) ∧
    (∀ (realpath : String → String) (fs mp : String), realpath fs = fs →
      (WhisperFile.init realpath fs mp).real_metric
        = (WhisperFile.init realpath fs mp).metric_path) := by
  constructor
  · intro fs mp
    rfl
  · intro realpath fs mp h
    unfold WhisperFile.init
    rw [if_neg (not_ne_iff.mpr h)]
    rfl

theorem c10_real_metric_witness :
    (WhisperFile.init (fun s => s) "/data/a/b.wsp" "a.b").real_metric
      = (WhisperFile.init (fun s => s) "/data/a/b.wsp" "a.b").metric_path :=
  c10_real_metric.2 (fun s => s) "/data/a/b.wsp" "a.b" rfl

/-! ## Federated wildcard find (storage.py lines 81-98)

`Store.find_all` starts the remote requests, then yields every local match
of every local directory, adding each yielded match's `metric_path` to a
seen-set (`found`), and finally yields each remote result whose
`metric_path` is not yet in `found`, adding it.  The seen-set is keyed by
the node's logical `metric_path` attribute — not by the symlink-resolved
`real_metric`. -/

structure FNode where
  metric_path : String
  real_metric : String
deriving DecidableEq

/-- One local directory: `yield match; found.add(match.metric_path)`. -/
def yieldDir : List FNode → List String → (List FNode × List String)
  | [], found => ([], found)
  | m :: ms, found =>
      let r := yieldDir ms (found ++ [m.metric_path])
      (m :: r.1, r.2)

/-- All local directories in turn, threading the seen-set. -/
def localPhase : List (List FNode) → List String → (List FNode × List String)
  | [], found => ([], found)
  | dir :: dirs, found =>
      let r1 := yieldDir dir found
      let r2 := localPhase dirs r1.2
      (r1.1 ++ r2.1, r2.2)

/-- One remote request's results:
`if match.metric_path not in found: yield match; found.add(match.metric_path)`. -/
def gatherReq : List FNode → List String → (List FNode × List String)
  | [], found => ([], found)
  | m :: ms, found =>
      if m.metric_path ∈ found then gatherReq ms found
      else
        let r := gatherReq ms (found ++ [m.metric_path])
        (m :: r.1, r.2)

/-- All remote requests in turn. -/
def remotePhase : List (List FNode) → List String → List FNode
  | [], _ => []
  | req :: reqs, found =>
      let r := gatherReq req found
      r.1 ++ remotePhase reqs r.2

/-- `Store.find_all`: the local phase starting from an empty seen-set, then
the remote phase over the resulting seen-set. -/
def find_all (localDirs remoteReqs : List (List FNode)) : List FNode :=
  let r := localPhase localDirs []
  r.1 ++ remotePhase remoteReqs r.2

theorem yieldDir_spec :
    ∀ (ms : List FNode) (found : List String),
      yieldDir ms found = (ms, found ++ ms.map FNode.metric_path) := by
  intro ms
  induction ms with
  | nil => intro found; simp [yieldDir]
  | cons m ms ih =>
      intro found
      simp [yieldDir, ih]

theorem localPhase_spec :
    ∀ (dirs : List (List FNode)) (found : List String),
      localPhase dirs found = (dirs.flatten, found ++ dirs.flatten.map FNode.metric_path) := by
  intro dirs
  induction dirs with
  | nil => intro found; simp [localPhase]
  | cons dir dirs ih =>
      intro found
      simp [localPhase, yieldDir_spec, ih]

theorem gatherReq_spec :
    ∀ (ms : List FNode) (found : List String),
      (gatherReq ms found).2 = found ++ ((gatherReq ms found).1).map FNode.metric_path ∧
      ((gatherReq ms found).1.map FNode.metric_path).Nodup ∧
      (∀ m ∈ (gatherReq ms found).1, m.metric_path ∉ found) ∧
      (∀ m ∈ ms, m.metric_path ∈ found ∨
        m.metric_path ∈ (gatherReq ms found).1.map FNode.metric_path) ∧
      (gatherReq ms found).1.Sublist ms := by
  intro ms
  induction ms with
  | nil => intro found; simp [gatherReq]
  | cons m ms ih =>
      intro found
      by_cases hm : m.metric_path ∈ found
      · have hstep : gatherReq (m :: ms) found = gatherReq ms found := by
          simp [gatherReq, hm]
        obtain ⟨ih1, ih2, ih3, ih4, ih5⟩ := ih found
        rw [hstep]
        refine ⟨ih1, ih2, ih3, ?_, ih5.cons m⟩
        intro x hx
        rcases List.mem_cons.mp hx with hx1 | hx1
        · subst hx1; exact Or.inl hm
        · exact ih4 x hx1
      · have hstep : gatherReq (m :: ms) found =
            (m :: (gatherReq ms (found ++ [m.metric_path])).1,
             (gatherReq ms (found ++ [m.metric_path])).2) := by
          simp [gatherReq, hm]
        obtain ⟨ih1, ih2, ih3, ih4, ih5⟩ := ih (found ++ [m.metric_path])
        rw [hstep]
        refine ⟨?_, ?_, ?_, ?_, ih5.cons₂ m⟩
        · simp only [List.map_cons]
          rw [ih1, List.append_assoc]
          rfl
        · simp only [List.map_cons, List.nodup_cons]
          refine ⟨?_, ih2⟩
          intro hmem
          obtain ⟨x, hx, hxe⟩ := List.mem_map.mp hmem
          have := ih3 x hx
          simp [hxe] at this
        · intro x hx
          rcases List.mem_cons.mp hx with hx1 | hx1
          · subst hx1; exact hm
          · intro hc
            exact ih3 x hx1 (by simp [hc])
        · intro x hx
          rcases List.mem_cons.mp hx with hx1 | hx1
          · subst hx1
            exact Or.inr (by simp)
          · rcases ih4 x hx1 with hin | hin
            · rcases List.mem_append.mp hin with h1 | h1
              · exact Or.inl h1
              · simp only [List.mem_singleton] at h1
                exact Or.inr (by simp [h1])
            · exact Or.inr (by simp [hin])

theorem remotePhase_spec :
    ∀ (reqs : List (List FNode)) (found : List String),
      ((remotePhase reqs found).map FNode.metric_path).Nodup ∧
      (∀ m ∈ remotePhase reqs found, m.metric_path ∉ found) ∧
      (∀ m ∈ reqs.flatten, m.metric_path ∈ found ∨
        m.metric_path ∈ (remotePhase reqs found).map FNode.metric_path) ∧
      (remotePhase reqs found).Sublist reqs.flatten := by
  intro reqs
  induction reqs with
  | nil => intro found; simp [remotePhase]
  | cons req reqs ih =>
      intro found
      obtain ⟨g1, g2, g3, g4, g5⟩ := gatherReq_spec req found
      obtain ⟨ih1, ih2, ih3, ih4⟩ := ih (gatherReq req found).2
      have hstep : remotePhase (req :: reqs) found =
          (gatherReq req found).1 ++ remotePhase reqs (gatherReq req found).2 := by
        simp [remotePhase]
      rw [hstep]
      have hdisj : ∀ p ∈ ((gatherReq req found).1.map FNode.metric_path),
          p ∉ (remotePhase reqs (gatherReq req found).2).map FNode.metric_path := by
        intro p hp hq
        obtain ⟨x, hx, hxe⟩ := List.mem_map.mp hq
        have := ih2 x hx
        rw [g1] at this
        exact this (by simp [hxe, hp])
      refine ⟨?_, ?_, ?_, ?_⟩
      · rw [List.map_append]
        exact List.Nodup.append g2 ih1 (fun p hp hq => hdisj p hp hq)
      · intro x hx
        rcases List.mem_append.mp hx with h1 | h1
        · exact g3 x h1
        · have := ih2 x h1
          rw [g1] at this
          intro hc
          exact this (by simp [hc])
      · intro x hx
        rw [List.flatten_cons, List.mem_append] at hx
        rcases hx with h1 | h1
        · rcases g4 x h1 with h2 | h2
          · exact Or.inl h2
          · exact Or.inr (by simp [h2])
        · rcases ih3 x h1 with h2 | h2
          · rw [g1, List.mem_append] at h2
            rcases h2 with h3 | h3
            · exact Or.inl h3
            · exact Or.inr (by simp [h3])
          · exact Or.inr (by simp [h2])
      · exact g5.append ih4

/-- C3 counterexample: a local match with logical path `x` but canonical
path `r`, and a remote result with logical path `y` and the same canonical
path `r`.  The claim's seen-set of canonical paths contains `r` after the
local phase, so the remote node should be suppressed — but the code keys the
seen-set by logical `metric_path` (`x` vs `y`) and yields it. -/
theorem c3_counterexample :
    find_all [[FNode.mk "x" "r"]] [[FNode.mk "y" "r"]]
      = [FNode.mk "x" "r", FNode.mk "y" "r"] ∧
    (FNode.mk "y" "r").real_metric = (FNode.mk "x" "r").real_metric := by
  exact ⟨by decide, rfl⟩

/-- C3 (amended): every local match from every local root is yielded, in
order and without deduplication (the output starts with the concatenation of
the local results); each yielded local match's *logical* metric path
(`metric_path`, not the symlink-resolved canonical path) is recorded in the
seen-set; and the remote part of the output is a subsequence of the remote
results in which a node is yielded exactly when its logical metric path was
not already seen: remote output paths are pairwise distinct, disjoint from
the local paths, and every remote result's path does appear among the local
paths or the yielded remote paths. -/
theorem c3_find_all_amended :
    ∀ (locals remotes : List (List FNode)),
      (find_all locals remotes).take locals.flatten.length = locals.flatten ∧
      (((find_all locals remotes).drop locals.flatten.length).map
          FNode.metric_path).Nodup ∧
      (∀ m ∈ (find_all locals remotes).drop locals.flatten.length,
        m.metric_path ∉ locals.flatten.map FNode.metric_path) ∧
      (∀ m ∈ remotes.flatten,
        m.metric_path ∈ locals.flatten.map FNode.metric_path ∨
        m.metric_path ∈ ((find_all locals remotes).drop locals.flatten.length).map
          FNode.metric_path) ∧
      ((find_all locals remotes).drop locals.flatten.length).Sublist
        remotes.flatten := by
  intro locals remotes
  have hfa : find_all locals remotes =
      locals.flatten ++ remotePhase remotes (locals.flatten.map FNode.metric_path) := by
    unfold find_all
    rw [localPhase_spec]
    simp
  obtain ⟨r1, r2, r3, r4⟩ := remotePhase_spec remotes (locals.flatten.map FNode.metric_path)
  rw [hfa]
  rw [List.take_left, List.drop_left]
  exact ⟨rfl, r1, r2, r3, r4⟩

theorem c3_find_all_amended_witness :
    (find_all [[FNode.mk "a" "a"]] [[FNode.mk "a" "a", FNode.mk "b" "b"]]).take 1
      = [FNode.mk "a" "a"] := by
  have h := (c3_find_all_amended [[FNode.mk "a" "a"]]
    [[FNode.mk "a" "a", FNode.mk "b" "b"]]).1
  simpa using h

/-! ## fetchDataFromHyperTable resampling (datalib.py lines 276-287)

For each metric the scan results are resampled:
`steps = int(end - start) / rate`, `finalValues = [None] * steps`, and each
returned `(timestamp, value)` pair is written to
`bucket = int(min(round(float(ts - start) / float(rate)), steps - 1))`.
Exact rational arithmetic models the float division (timestamps and rates
are integers well inside the exact range of IEEE doubles). -/

/-- Python 2 `round`: round half away from zero. -/
def pyRound (x : ℚ) : Int :=
  if 0 ≤ x then ⌊x + 1/2⌋ else -⌊-x + 1/2⌋

/-- `bucket = int(min(round(float(ts - start) / float(rate)), steps - 1))`. -/
def bucketOf (rate start steps t : Int) : Int :=
  min (pyRound ((t - start : ℚ) / (rate : ℚ))) (steps - 1)

/-- `values[i] = v` with Python semantics: negative indexing wraps, an
out-of-range index raises `IndexError` (this loop has no `try`, so the
error would propagate: modelled as `none`). -/
def pySet (values : List (Option ℚ)) (i : Int) (v : ℚ) : Option (List (Option ℚ)) :=
  match pyIdx values.length i with
  | some n => some (values.set n (some v))
  | none => none

/-- The per-metric resampling loop: `finalValues[bucket] = float(x[1])`. -/
def resampleLoop (rate start steps : Int) :
    List (Int × ℚ) → List (Option ℚ) → Option (List (Option ℚ))
  | [], values => some values
  | x :: xs, values =>
      match pySet values (bucketOf rate start steps x.1) x.2 with
      | some v2 => resampleLoop rate start steps xs v2
      | none => none

/-- Resampling one metric's scan results (Python 2 floor division for
`steps`). -/
def resample (rate start finish : Int) (samples : List (Int × ℚ)) :
    Option (List (Option ℚ)) :=
  let steps := (finish - start).fdiv rate
  resampleLoop rate start steps samples (List.replicate steps.toNat none)

theorem resampleLoop_eq_applyWrites (rate start steps : Int) :
    ∀ (samples : List (Int × ℚ)) (values : List (Option ℚ)),
      (∀ s ∈ samples, 0 ≤ bucketOf rate start steps s.1 ∧
        bucketOf rate start steps s.1 < (values.length : Int)) →
      resampleLoop rate start steps samples values =
        some (applyWrites
          (fun s => some (bucketOf rate start steps s.1).toNat)
          (fun s => some s.2) samples values) := by
  intro samples
  induction samples with
  | nil => intro values _; rfl
  | cons s ss ih =>
      intro values hin
      obtain ⟨h0, hlt⟩ := hin s (by simp)
      have hidx : pyIdx values.length (bucketOf rate start steps s.1) =
          some (bucketOf rate start steps s.1).toNat := by
        unfold pyIdx
        rw [if_pos ⟨h0, hlt⟩]
      have hstep : resampleLoop rate start steps (s :: ss) values =
          resampleLoop rate start steps ss
            (values.set (bucketOf rate start steps s.1).toNat (some s.2)) := by
        simp [resampleLoop, pySet, hidx]
      rw [hstep]
      have hlen : (values.set (bucketOf rate start steps s.1).toNat (some s.2)).length
          = values.length := by simp
      rw [ih _ (fun t ht => by rw [hlen]; exact hin t (by simp [ht]))]
      rfl

/-- C6: with a declared rate `r > 0` and a requested range giving at least
one bucket, resampling builds an array of `(end - start) / r` slots and
places every returned sample with `timestamp ≥ start` into bucket
`min(round((timestamp - start) / r), steps - 1)` — all such buckets are in
range, so no sample overflows and late timestamps are clamped into the
final bucket — and a later sample mapping to the same bucket overwrites an
earlier one (slot `j` holds the value of the last sample whose bucket is
`j`, or null when no sample maps to `j`).  With `r = 60`, `start = 0`,
`end = 180` there are 3 buckets and a sample at `t = 179` lands in
bucket 2. -/
theorem c6_resample :
    (∀ (rate start finish : Int) (samples : List (Int × ℚ)),
      0 < rate → 1 ≤ (finish - start).fdiv rate →
      (∀ s ∈ samples, start ≤ s.1) →
      ∃ arr, resample rate start finish samples = some arr ∧
        arr.length = ((finish - start).fdiv rate).toNat ∧
        ∀ j : Nat, j < arr.length →
          arr[j]? = ((samples.filter (fun s =>
              decide (bucketOf rate start ((finish - start).fdiv rate) s.1
                = (j : Int)))).getLast?).elim
            (some none) (fun s => some (some s.2))) ∧
    ((180 : Int) - 0).fdiv 60 = 3 ∧
    bucketOf 60 0 3 179 = 2 := by
  refine ⟨?_, by decide, ?_⟩
  · intro rate start finish samples hrate hsteps hts
    set steps := (finish - start).fdiv rate with hstepsdef
    have hbound : ∀ s ∈ samples, 0 ≤ bucketOf rate start steps s.1 ∧
        bucketOf rate start steps s.1 <
          ((List.replicate steps.toNat (none : Option ℚ)).length : Int) := by
      intro s hs
      have ht := hts s hs
      have hx : (0 : ℚ) ≤ ((s.1 : ℚ) - (start : ℚ)) / (rate : ℚ) := by
        apply div_nonneg
        · rw [sub_nonneg]
          exact_mod_cast ht
        · exact_mod_cast hrate.le
      constructor
      · unfold bucketOf pyRound
        rw [if_pos hx]
        apply le_min
        · rw [Int.le_floor]
          push_cast
          linarith
        · omega
      · have hm : bucketOf rate start steps s.1 ≤ steps - 1 := min_le_right _ _
        rw [List.length_replicate]
        have hs0 : ((steps.toNat : Int)) = steps := Int.toNat_of_nonneg (by omega)
        omega
    refine ⟨applyWrites (fun s => some (bucketOf rate start steps s.1).toNat)
        (fun s => some s.2) samples (List.replicate steps.toNat none), ?_, ?_, ?_⟩
    · unfold resample
      rw [← hstepsdef]
      exact resampleLoop_eq_applyWrites rate start steps samples _ hbound
    · rw [applyWrites_length, List.length_replicate]
    · intro j hj
      have hj' : j < (List.replicate steps.toNat (none : Option ℚ)).length := by
        rw [applyWrites_length] at hj
        exact hj
      rw [applyWrites_get _ _ _ _ _ hj']
      have hfc : samples.filter
          (fun s => decide (some (bucketOf rate start steps s.1).toNat = some j))
          = samples.filter
            (fun s => decide (bucketOf rate start steps s.1 = (j : Int))) := by
        apply List.filter_congr
        intro s hs
        have h0 := (hbound s hs).1
        simp only [decide_eq_decide, Option.some_inj]
        omega
      rw [hfc]
      have hrep : (List.replicate steps.toNat (none : Option ℚ))[j]? = some none := by
        rw [List.length_replicate] at hj'
        simp [List.getElem?_replicate, hj']
      rw [hrep]
  · unfold bucketOf pyRound
    rw [if_pos (by norm_num)]
    have hfl : ⌊(((179 : Int) : ℚ) - ((0 : Int) : ℚ)) / ((60 : Int) : ℚ) + 1 / 2⌋
        = (3 : Int) := by
      rw [Int.floor_eq_iff]
      constructor <;> norm_num
    rw [hfl]
    decide

theorem c6_resample_witness :
    ∃ arr, resample 60 0 180 [((179 : Int), (5 : ℚ))] = some arr ∧
      arr[2]? = some (some 5) := by
  obtain ⟨arr, h1, h2, h3⟩ := c6_resample.1 60 0 180 [(179, 5)]
    (by norm_num) (by decide)
    (by
      intro s hs
      rw [List.mem_singleton] at hs
      rw [hs]
      norm_num)
  have hlen : arr.length = 3 := by simpa using h2
  refine ⟨arr, h1, ?_⟩
  rw [h3 2 (by omega)]
  rw [show ((180 : Int) - 0).fdiv 60 = 3 from by decide]
  simp [List.filter_cons, c6_resample.2.2]

/-! ## fetchDataFromHyperTable rate filtering (datalib.py lines 229-239)

`metrics = [addPrefix(m[0]) for m in metricData]`, then for each metric
whose rate field is falsy (`if not m[1]`) the code logs
"doesn't specify a rate! Not rendering..." and calls
`metrics.remove(m[0])` — with the name as returned by the index, while
`metrics` holds `addPrefix(m[0])`.  The row-key prefixing function
`addPrefix` lives in `graphite.hypertable_client`, outside this slice, so
it is modelled as an abstract parameter.  `findMetric` is called on the
already-prefixed path expression and `metricRate[m[0]]` is later read with
scan row keys, so the self-consistent reading is that the index returns
row-key-form names which `addPrefix` leaves unchanged (an idempotent
prefix); the claim theorem takes that as a hypothesis. -/

/-- `if not m[1]` for a rate field: `None` and `0` are falsy. -/
def rateFalsy : Option Int → Bool
  | none => true
  | some r => r == 0

/-- Python's `list.remove(x)`: drops the first occurrence, raises
`ValueError` when `x` is absent. -/
def pyRemove (xs : List String) (v : String) : Except String (List String) :=
  if v ∈ xs then .ok (xs.erase v) else .error "ValueError"

/-- The rate-filtering loop over `metricData` (`metrics` threaded through,
`metricRate` accumulated as an association list). -/
def rateLoop : List (String × Option Int) → List String → List (String × Int) →
    Except String (List String × List (String × Int))
  | [], metrics, rates => .ok (metrics, rates)
  | (nm, r) :: rest, metrics, rates =>
      if rateFalsy r then
        match pyRemove metrics nm with
        | .ok m2 => rateLoop rest m2 rates
        | .error e => .error e
      else
        rateLoop rest metrics
          (rates ++ (match r with | some x => [(nm, x)] | none => []))

/-- datalib.py lines 229-236: build the prefixed metric list, then drop the
metrics without a declared rate. -/
def filterMetrics (addPfx : String → String)
    (metricData : List (String × Option Int)) :
    Except String (List String × List (String × Int)) :=
  rateLoop metricData (metricData.map (fun m => addPfx m.1)) []

theorem rateLoop_ok :
    ∀ (ms : List (String × Option Int)) (pre : List String) (R : List (String × Int)),
      (ms.map Prod.fst).Nodup →
      (∀ nm ∈ ms.map Prod.fst, nm ∉ pre) →
      rateLoop ms (pre ++ ms.map Prod.fst) R =
        .ok (pre ++ (ms.filter (fun m => !rateFalsy m.2)).map Prod.fst,
             R ++ ms.filterMap
               (fun m => if rateFalsy m.2 then none
                         else m.2.map (fun x => (m.1, x)))) := by
  intro ms
  induction ms with
  | nil => intro pre R _ _; simp [rateLoop]
  | cons m rest ih =>
      intro pre R hnodup hpre
      obtain ⟨nm, r⟩ := m
      simp only [List.map_cons, List.nodup_cons] at hnodup
      have hnm_pre : nm ∉ pre := hpre nm (by simp)
      by_cases hf : rateFalsy r = true
      · have hmem : nm ∈ pre ++ nm :: rest.map Prod.fst := by simp
        have herase : (pre ++ nm :: rest.map Prod.fst).erase nm
            = pre ++ rest.map Prod.fst := by
          rw [List.erase_append_right _ hnm_pre, List.erase_cons_head]
        have hstep : rateLoop ((nm, r) :: rest) (pre ++ nm :: rest.map Prod.fst) R
            = rateLoop rest (pre ++ rest.map Prod.fst) R := by
          simp [rateLoop, hf, pyRemove, hmem, herase]
        rw [show ((nm, r) :: rest).map Prod.fst = nm :: rest.map Prod.fst from rfl,
          hstep, ih pre R hnodup.2 (fun x hx => hpre x (by simp [hx]))]
        simp [List.filter_cons, hf]
      · obtain ⟨x, hx⟩ : ∃ x, r = some x := by
          cases r with
          | none => exact absurd (show rateFalsy none = true from rfl) hf
          | some x => exact ⟨x, rfl⟩
        subst hx
        have hstep : rateLoop ((nm, some x) :: rest) (pre ++ nm :: rest.map Prod.fst) R
            = rateLoop rest ((pre ++ [nm]) ++ rest.map Prod.fst) (R ++ [(nm, x)]) := by
          simp [rateLoop, hf]
        rw [show ((nm, some x) :: rest).map Prod.fst = nm :: rest.map Prod.fst from rfl,
          hstep, ih (pre ++ [nm]) (R ++ [(nm, x)]) hnodup.2 ?_]
        · simp [List.filter_cons, hf, List.filterMap_cons]
        · intro y hy
          simp only [List.mem_append, List.mem_singleton]
          rintro (hy1 | hy1)
          · exact hpre y (by simp [hy]) hy1
          · exact hnodup.1 (hy1 ▸ hy)

/-- C7: the index's metric names are already in row-key form — `findMetric`
is called on the prefixed path expression, and `metricRate` (keyed by
`m[0]`) is later read with scan row keys, so `addPrefix` must leave the
returned names unchanged for the function to work at all; the hypothesis
states that consistency.  Under it, a metric whose rate field is falsy is
removed from `metrics` and gets no `metricRate` entry — excluded from the
result set entirely, with no exception raised — while every metric with a
declared rate stays, with its rate, unaffected. -/
theorem c7_rate_filter :
    (∀ (addPfx : String → String) (metricData : List (String × Option Int)),
      (∀ m ∈ metricData, addPfx m.1 = m.1) →
      (metricData.map Prod.fst).Nodup →
      filterMetrics addPfx metricData =
        .ok ((metricData.filter (fun m => !rateFalsy m.2)).map Prod.fst,
             metricData.filterMap
               (fun m => if rateFalsy m.2 then none
                         else m.2.map (fun x => (m.1, x))))) ∧
    filterMetrics (fun s => s) [("a", none), ("b", some 60)]
      = .ok (["b"], [("b", 60)]) := by
  constructor
  · intro addPfx metricData hpfx hnodup
    unfold filterMetrics
    have hmap : metricData.map (fun m => addPfx m.1) = metricData.map Prod.fst := by
      apply List.map_congr_left
      intro m hm
      exact hpfx m hm
    rw [hmap]
    have h := rateLoop_ok metricData [] [] hnodup (by simp)
    simpa using h
  · exact rfl

theorem c7_rate_filter_witness :
    filterMetrics (fun s => s) [("a", none), ("b", some 60)]
      = .ok (["b"], [("b", 60)]) := by
  have h := c7_rate_filter.1 (fun s => s) [("a", none), ("b", some 60)]
    (fun m _ => rfl) (by decide)
  simpa using h

/-! ## The metric tree finder (storage.py lines 149-232)

`find(root_dir, query)` filters the paths generated by the recursive
`_find` and wraps each surviving path in a typed node.  The filesystem is
modelled as a tree of named files and directories, and a path as its list
of components below the root.  `rrdtool` is modelled as absent (the
module-level `import rrdtool` fails and leaves `rrdtool = False`), so the
RRD branch of `_find` and the datasource-delimiter branch of `find` never
run.  String operations (`split('.')`, `startswith`, `endswith`,
`os.path.splitext`) are implemented on character lists. -/

/-- `pattern.split('.')` (Python keeps empty segments). -/
def splitCharsDot : List Char → List (List Char)
  | [] => [[]]
  | c :: rest =>
      let r := splitCharsDot rest
      if c == '.' then [] :: r
      else
        match r with
        | h :: t => (c :: h) :: t
        | [] => [[c]]

def pySplitDots (s : String) : List String :=
  (splitCharsDot s.toList).map String.mk

/-- `s.startswith('.')`. -/
def startsWithDot (s : String) : Bool :=
  match s.toList with
  | '.' :: _ => true
  | _ => false

/-- `s.endswith(suf)`. -/
def strEndsWith (s suf : String) : Bool :=
  s.toList.reverse.take suf.toList.length == suf.toList.reverse

/-- `os.path.splitext` on a dot-joined metric path (which contains no path
separators): split at the last `.`, unless every character before it is a
leading dot. -/
def splitext (s : String) : String × String :=
  let cs := s.toList
  match cs.reverse.findIdx? (fun c => c == '.') with
  | none => (s, "")
  | some j =>
      let i := cs.length - 1 - j
      if (cs.take i).any (fun c => !(c == '.')) then
        (String.mk (cs.take i), String.mk (cs.drop i))
      else (s, "")

/-! ### `fnmatch.fnmatch`

`fnmatch.translate` turns the pattern into a regex: `*` → `.*`, `?` → `.`,
`[...]`/`[!...]` → a regex character class (a `]` right after the opening
`[`/`[!` is a literal member; an unclosed `[` is a literal `[`); matching
is case-sensitive on Linux and does not treat dots or dotfiles specially. -/

inductive ClassItem where
  | single (c : Char)
  | range (lo hi : Char)
deriving DecidableEq

/-- Split a class body into members, reading `a-b` as a regex range; a `-`
without both endpoints is a literal member. -/
def classItems : List Char → List ClassItem
  | [] => []
  | a :: '-' :: b :: rest => .range a b :: classItems rest
  | a :: rest => .single a :: classItems rest

def classItemMatch (c : Char) : ClassItem → Bool
  | .single a => c == a
  | .range lo hi => decide (lo.toNat ≤ c.toNat) && decide (c.toNat ≤ hi.toNat)

def classMatch (neg : Bool) (items : List ClassItem) (c : Char) : Bool :=
  let m := items.any (classItemMatch c)
  if neg then !m else m

/-- Split the input at the first `]`, returning the part before it and the
remainder after it. -/
def splitAtClose : List Char → Option (List Char × List Char)
  | [] => none
  | ']' :: rest => some ([], rest)
  | c :: rest =>
      match splitAtClose rest with
      | some (body, rem) => some ((c :: body), rem)
      | none => none

/-- Scan a character class as `fnmatch.translate` does: an optional leading
`!`, a `]` right after it is a literal member, then everything up to the
closing `]`.  `none` when the class never closes. -/
def scanClass (ps : List Char) : Option (Bool × List Char × List Char) :=
  let negqs : Bool × List Char :=
    match ps with
    | '!' :: rest => (true, rest)
    | _ => (false, ps)
  match negqs.2 with
  | ']' :: rest =>
      match splitAtClose rest with
      | some (body, rem) => some (negqs.1, ']' :: body, rem)
      | none => none
  | _ =>
      match splitAtClose negqs.2 with
      | some (body, rem) => some (negqs.1, body, rem)
      | none => none

/-- The backtracking matcher for the translated pattern.  `fuel` bounds the
recursion: every call strictly decreases the combined length of pattern and
input, so `pattern.length + input.length + 1` suffices. -/
def gmAux : Nat → List Char → List Char → Bool
  | 0, _, _ => false
  | _ + 1, [], s => s.isEmpty
  | fuel + 1, '*' :: ps, s =>
      gmAux fuel ps s ||
        (match s with
         | [] => false
         | _ :: cs => gmAux fuel ('*' :: ps) cs)
  | fuel + 1, '?' :: ps, s =>
      (match s with
       | [] => false
       | _ :: cs => gmAux fuel ps cs)
  | fuel + 1, '[' :: ps, s =>
      (match scanClass ps with
       | some (neg, body, rem) =>
          (match s with
           | [] => false
           | c :: cs => classMatch neg (classItems body) c && gmAux fuel rem cs)
       | none =>
          (match s with
           | [] => false
           | c :: cs => (c == '[') && gmAux fuel ps cs))
  | fuel + 1, p :: ps, s =>
      (match s with
       | [] => false
       | c :: cs => (p == c) && gmAux fuel ps cs)

def globMatch (pattern name : String) : Bool :=
  gmAux (pattern.toList.length + name.toList.length + 1) pattern.toList name.toList

/-! ### The filesystem model and `_find` -/

inductive FSTree where
  | file (name : String)
  | dir (name : String) (children : List FSTree)

def FSTree.name : FSTree → String
  | .file n => n
  | .dir n _ => n

def FSTree.isDir : FSTree → Bool
  | .file _ => false
  | .dir _ _ => true

/-- Byte-wise string comparison, as Python 2 compares `str` (identical to
codepoint order for the ASCII names involved). -/
def charsLe : List Char → List Char → Bool
  | [], _ => true
  | _ :: _, [] => false
  | a :: as, b :: bs =>
      if a.toNat < b.toNat then true
      else if b.toNat < a.toNat then false
      else charsLe as bs

def strLe (a b : String) : Bool :=
  charsLe a.toList b.toList

def insertLe (a : String) : List String → List String
  | [] => [a]
  | b :: bs => if strLe a b then a :: b :: bs else b :: insertLe a bs

/-- `list.sort()`: stable ascending sort (directory entries are unique, so
any correct ascending sort gives Python's result). -/
def sortStr : List String → List String
  | [] => []
  | a :: as => insertLe a (sortStr as)

/-- The children of the subdirectory named `nm`. -/
def childDir (entries : List FSTree) (nm : String) : List FSTree :=
  match entries.find? (fun e => e.isDir && e.name == nm) with
  | some (.dir _ cs) => cs
  | _ => []

/-- `_find(current_dir, patterns)` (storage.py lines 196-232, with
`rrdtool` absent): match the first pattern against the sorted subdirectory
names; recurse while patterns remain, else also match files against
`pattern + '.*'` and emit the sorted matches.  `pathAcc` carries the
components from the root (`os.path.join`). -/
def findPaths (entries : List FSTree) (pathAcc : List String) :
    List String → List (List String)
  | [] => []  -- unreachable: `query.pattern.split('.')` is never empty
  | p :: ps =>
      let subdirs := (entries.filter (fun e => e.isDir)).map FSTree.name
      let matching_subdirs := sortStr (subdirs.filter (fun nm => globMatch p nm))
      if ps ≠ [] then
        matching_subdirs.flatMap
          (fun d => findPaths (childDir entries d) (pathAcc ++ [d]) ps)
      else
        let files := (entries.filter (fun e => !e.isDir)).map FSTree.name
        let matching_files :=
          sortStr (files.filter (fun nm => globMatch (p ++ ".*") nm))
        (matching_subdirs ++ matching_files).map (fun b => pathAcc ++ [b])

/-- `os.path.isdir`/`os.path.isfile` of a path, by walking the tree. -/
def lookupPath (entries : List FSTree) : List String → Option FSTree
  | [] => none
  | [n] => entries.find? (fun e => e.name == n)
  | n :: rest =>
      match entries.find? (fun e => e.isDir && e.name == n) with
      | some (.dir _ cs) => lookupPath cs rest
      | _ => none

inductive NodeKind where
  | branch
  | ceresDir
  | whisper
  | gzWhisper
deriving DecidableEq

structure FoundNode where
  kind : NodeKind
  fsPath : List String
  metricPath : String
deriving DecidableEq

/-- The body of `find`'s loop for one path from `_find` (storage.py lines
154-182): skip paths whose basename starts with a dot, derive the metric
path, and dispatch.  `isCeres` models `CeresNode.isNodeDir` and
`ceresHasData` models `hasDataForInterval(startTime, endTime)` (the ceres
library is outside this slice; its node-path naming is identified with the
derived metric path); the RRD datasource-delimiter branch is vacuous with
`rrdtool` absent, and an `.rrd` extension matches no branch. -/
def processPath (fs : List FSTree) (isCeres ceresHasData : List String → Bool)
    (path : List String) : Option FoundNode :=
  if startsWithDot (path.getLastD "") then none
  else
    let metric_path := String.intercalate "." path
    match lookupPath fs path with
    | some (.dir _ _) =>
        if isCeres path then
          if ceresHasData path then some ⟨.ceresDir, path, metric_path⟩ else none
        else some ⟨.branch, path, metric_path⟩
    | some (.file _) =>
        let pr := splitext metric_path
        if pr.2 = ".wsp" then some ⟨.whisper, path, pr.1⟩
        else if pr.2 = ".gz" && strEndsWith pr.1 ".wsp" then
          some ⟨.gzWhisper, path, (splitext pr.1).1⟩
        else none
    | none => none

/-- `find(root_dir, query)`. -/
def findNodes (fs : List FSTree) (isCeres ceresHasData : List String → Bool)
    (pattern : String) : List FoundNode :=
  (findPaths fs [] (pySplitDots pattern)).filterMap
    (processPath fs isCeres ceresHasData)

/-- C8 counterexample: under the root `.hidden/metric.wsp`, the wildcard
query `*.metric` traverses the dot-directory (`fnmatch` matches dotfiles
with `*`, and `_find` applies no dot filter to intermediate components) and
`find` yields the whisper node — whose filesystem path contains the
component `.hidden`.  Only the final component (basename) is ever checked
for a leading dot. -/
theorem c8_counterexample :
    findNodes [FSTree.dir ".hidden" [FSTree.file "metric.wsp"]]
        (fun _ => false) (fun _ => false) "*.metric"
      = [FoundNode.mk .whisper [".hidden", "metric.wsp"] ".hidden.metric"] ∧
    ".hidden" ∈ ([".hidden", "metric.wsp"] : List String) ∧
    startsWithDot ".hidden" = true := by
  refine ⟨by decide, by decide, by decide⟩

theorem processPath_dot (fs : List FSTree) (ic ch : List String → Bool)
    (path : List String) (node : FoundNode)
    (h : processPath fs ic ch path = some node) :
    node.fsPath = path ∧ startsWithDot (path.getLastD "") = false := by
  simp only [processPath] at h
  by_cases hdot : startsWithDot (path.getLastD "") = true
  · rw [if_pos hdot] at h
    exact absurd h (by simp)
  · rw [if_neg hdot] at h
    refine ⟨?_, by simpa using hdot⟩
    split at h
    · split at h
      · split at h
        · cases h; rfl
        · exact absurd h (by simp)
      · cases h; rfl
    · split at h
      · cases h; rfl
      · split at h
        · cases h; rfl
        · exact absurd h (by simp)
    · exact absurd h (by simp)

/-- C8 (amended): the finder never yields a node whose *final* path
component (basename) begins with a dot — that is the only dot filtering
`find` performs; intermediate directory components beginning with a dot are
traversed by `_find` and can appear inside yielded paths (see the
counterexample). -/
theorem c8_dotfile_amended :
    ∀ (fs : List FSTree) (isCeres ceresHasData : List String → Bool)
      (pattern : String) (node : FoundNode),
      node ∈ findNodes fs isCeres ceresHasData pattern →
      startsWithDot (node.fsPath.getLastD "") = false := by
  intro fs ic ch pattern node hmem
  unfold findNodes at hmem
  obtain ⟨path, _, he⟩ := List.mem_filterMap.mp hmem
  obtain ⟨hfs, hdot⟩ := processPath_dot fs ic ch path node he
  rw [hfs]
  exact hdot

theorem c8_dotfile_amended_witness :
    startsWithDot ((FoundNode.mk .whisper [".hidden", "metric.wsp"]
      ".hidden.metric").fsPath.getLastD "") = false := by
  refine c8_dotfile_amended [FSTree.dir ".hidden" [FSTree.file "metric.wsp"]]
    (fun _ => false) (fun _ => false) "*.metric" _ ?_
  decide

theorem c5_isExact_witness :
    (GQuery.mk "servers.web01.cpu" none none).isExact = true :=
  (c5_isExact.1 (GQuery.mk "servers.web01.cpu" none none)).mpr (by decide)
